import Mathlib

/-!
Formal model of the Clarity ("brain6") stream composition core: the
stream-card position ledger (`backend/src/models/StreamCard.js` and the
insertion helpers of `CardFactory`), the card lifecycle manager
(`Card` model and `CardFactory`), and the background job queue
(`backend/src/services/simpleJobQueue.js`).

The JavaScript source operates on PostgreSQL rows inside transactions.
The embedding represents the `stream_cards` rows of one stream as a
`List SC` (the database table restricted to a single `stream_id`), and
each operation as a pure function returning `Except Err` - an `Except.error`
result corresponds to a thrown error, which aborts the enclosing SQL
transaction, so the caller keeps the unmodified state.

The source throws untyped `new Error(message)` values; the spec maps the
messages onto an error taxonomy (ValidationError, ConflictError,
NotFoundError, InvalidStateError).  `Err` keeps both: a constructor per
taxonomy class, carrying the message of the source.
-/

/-- Error taxonomy of the spec, carrying the message thrown by the source. -/
inductive Err where
  | validationErr (msg : String)
  | conflictErr (msg : String)
  | notFoundErr (msg : String)
  | invalidStateErr (msg : String)
  | typeErr (msg : String)
deriving Repr, DecidableEq

deriving instance DecidableEq for Except

/-- One `stream_cards` row of a fixed stream: the join entity between a
stream and a card, as selected and updated by `StreamCard.js`.  `position`
is an SQL integer (it may temporarily be pushed out of range by buggy
callers, hence `Int`). -/
structure SC where
  cardId : Nat
  position : Int
  depth : Int
  isInAIContext : Bool
  isCollapsed : Bool
deriving Repr, DecidableEq

/-- The `stream_cards` table restricted to one stream. -/
abbrev StreamState := List SC

/-- The `card_id` column of the stream. -/
def cardIds (s : StreamState) : List Nat := s.map SC.cardId

/-- The `position` column of the stream. -/
def positions (s : StreamState) : List Int := s.map SC.position

/-- SQL `COALESCE(MAX(column), d)`: the maximum of a column, with default
`d` when the table is empty. -/
def sqlMax (l : List Int) (d : Int) : Int :=
  match l with
  | [] => d
  | x :: xs => xs.foldl max x

/-- Apply a function to the `position` column of every row - an SQL
`UPDATE stream_cards SET position = f(position)` over the stream. -/
def mapPos (f : Int → Int) (s : StreamState) : StreamState :=
  s.map fun r => { r with position := f r.position }

/-- SQL `UPDATE ... SET position = position + 1 WHERE position >= p`. -/
def shiftUpFrom (p : Int) : Int → Int := fun x => if p ≤ x then x + 1 else x

/-- SQL `UPDATE ... SET position = position - 1 WHERE position > p`. -/
def shiftDownAfter (p : Int) : Int → Int := fun x => if p < x then x - 1 else x

/-- SQL `UPDATE ... SET position = position - 1 WHERE position > a AND position <= b`
(reorder, moving down). -/
def shiftRangeDown (a b : Int) : Int → Int :=
  fun x => if a < x ∧ x ≤ b then x - 1 else x

/-- SQL `UPDATE ... SET position = position + 1 WHERE position >= a AND position < b`
(reorder, moving up). -/
def shiftRangeUp (a b : Int) : Int → Int :=
  fun x => if a ≤ x ∧ x < b then x + 1 else x

/-- Model of `StreamCard.addCardToStream` (StreamCard.js lines 30-89).  The stream-
and card-existence checks query tables outside this model and are taken as
satisfied; the remaining steps are translated one for one: reject a card
that is already a member, resolve a missing position to
`COALESCE(MAX(position), -1) + 1`, shift the rows at or above the target
position up by one, and insert the new row. -/
def addCardToStream (s : StreamState) (c : Nat) (pos : Option Int)
    (depth : Int) (isInAIContext isCollapsed : Bool) :
    Except Err (StreamState × SC) :=
  if c ∈ cardIds s then
    .error (.validationErr "Card already exists in this stream")
  else
    let p := match pos with
      | none => sqlMax (positions s) (-1) + 1
      | some q => q
    let row : SC := ⟨c, p, depth, isInAIContext, isCollapsed⟩
    .ok (mapPos (shiftUpFrom p) s ++ [row], row)

/-- Model of `StreamCard.removeCardFromStream` (StreamCard.js lines 97-126): look up
the member row, return `false` when absent (a no-op, not an error),
otherwise delete the row and shift every higher position down by one. -/
def removeCardFromStream (s : StreamState) (c : Nat) : StreamState × Bool :=
  match s.find? (fun r => r.cardId == c) with
  | none => (s, false)
  | some r =>
      let removedPosition := r.position
      let remaining := s.filter (fun q => q.cardId ≠ c)
      (mapPos (shiftDownAfter removedPosition) remaining, true)

/-- Model of `StreamCard.reorderCard` (StreamCard.js lines 136-201): no-op check,
bounds check against `COALESCE(MAX(position), 0)`, directional range shift,
then the final update of the moved row (position, and depth when given). -/
def reorderCard (s : StreamState) (c : Nat) (newPos : Int)
    (newDepth : Option Int) : Except Err (StreamState × Bool) :=
  match s.find? (fun r => r.cardId == c) with
  | none => .error (.notFoundErr "Card not found in stream")
  | some r =>
      let cur := r.position
      let curDepth := r.depth
      if cur = newPos ∧ (newDepth = none ∨ newDepth = some curDepth) then
        .ok (s, false)
      else
        let maxPosition := sqlMax (positions s) 0
        if newPos < 0 ∨ maxPosition < newPos then
          .error (.validationErr "Invalid position")
        else
          let s1 :=
            if cur = newPos then s
            else if cur < newPos then mapPos (shiftRangeDown cur newPos) s
            else mapPos (shiftRangeUp newPos cur) s
          let s2 := s1.map fun q =>
            if q.cardId == c then
              { q with position := newPos,
                       depth := match newDepth with
                                | none => q.depth
                                | some d => d }
            else q
          .ok (s2, true)

/-- SQL `SET is_in_ai_context = NOT is_in_ai_context WHERE ... card_id = c`,
acting on one row. -/
def flipAI (c : Nat) (q : SC) : SC :=
  if q.cardId == c then { q with isInAIContext := !q.isInAIContext } else q

/-- SQL `SET is_collapsed = NOT is_collapsed WHERE ... card_id = c`, acting on
one row. -/
def flipCollapsed (c : Nat) (q : SC) : SC :=
  if q.cardId == c then { q with isCollapsed := !q.isCollapsed } else q

/-- Model of `StreamCard.toggleAIContext` (StreamCard.js lines 209-224): flip
`is_in_ai_context` of the member row and return the new value; error when
the card is not a member. -/
def toggleAIContext (s : StreamState) (c : Nat) :
    Except Err (StreamState × Bool) :=
  match s.find? (fun r => r.cardId == c) with
  | none => .error (.notFoundErr "Card not found in stream")
  | some r => .ok (s.map (flipAI c), !r.isInAIContext)

/-- Model of `StreamCard.toggleCollapsed` (StreamCard.js lines 232-247). -/
def toggleCollapsed (s : StreamState) (c : Nat) :
    Except Err (StreamState × Bool) :=
  match s.find? (fun r => r.cardId == c) with
  | none => .error (.notFoundErr "Card not found in stream")
  | some r => .ok (s.map (flipCollapsed c), !r.isCollapsed)

/-- The renumbering loop of `CardFactory.addCardToStreamSafely` (part_007
lines 267-278): walk the rows in position order, assigning 0, 1, 2, ...
and leaving a hole at `skip` for the row about to be inserted. -/
def assignPositionsFrom (skip : Int) : Int → List SC → List SC
  | _, [] => []
  | n, r :: rs =>
      let m := if n = skip then n + 1 else n
      { r with position := m } :: assignPositionsFrom skip (m + 1) rs

/-- SQL `ORDER BY position` over the rows of the stream. -/
def sortByPosition (s : StreamState) : StreamState :=
  s.insertionSort (fun a b => a.position ≤ b.position)

/-- Model of `CardFactory.addCardToStreamSafely` (part_007 lines 232-289): a card
already in the stream is silently accepted (`return`, no error); a missing
position appends at `COALESCE(MAX(position), -1) + 1`; an explicit position
renumbers every existing row from scratch (in position order, skipping the
requested slot) and then inserts the new row there.  The new row's `depth`
is the database column default 0 (the INSERT omits `depth`). -/
def addCardToStreamSafely (s : StreamState) (c : Nat) (pos : Option Int) :
    Except Err StreamState :=
  if c ∈ cardIds s then
    .ok s
  else
    match pos with
    | none =>
        let p := sqlMax (positions s) (-1) + 1
        .ok (s ++ [⟨c, p, 0, false, false⟩])
    | some p =>
        .ok (assignPositionsFrom p 0 (sortByPosition s) ++ [⟨c, p, 0, false, false⟩])

/-- Model of `CardFactory.addCardToStream` (part_007 lines 298-358), the "original
method": resolve a missing position up front, silently accept a duplicate
member, shift up only when the requested position is occupied, insert. -/
def factoryAddCardToStream (s : StreamState) (c : Nat) (pos : Option Int) :
    StreamState :=
  let p := match pos with
    | none => sqlMax (positions s) (-1) + 1
    | some q => q
  if c ∈ cardIds s then s
  else
    let s1 := if p ∈ positions s then mapPos (shiftUpFrom p) s else s
    s1 ++ [⟨c, p, 0, false, false⟩]

/-- The well-formedness the spec requires of a stream: positions are
pairwise distinct and lie in `{0, ..., count - 1}`.  Together with the
count this pins the position set to exactly `{0, ..., count - 1}`
(`contiguous_posSet` below). -/
def contiguous (s : StreamState) : Prop :=
  (positions s).Nodup ∧ ∀ r ∈ s, 0 ≤ r.position ∧ r.position < (s.length : Int)

instance (s : StreamState) : Decidable (contiguous s) := by
  unfold contiguous
  exact inferInstance

/-- Full well-formedness: the database uniqueness constraint on
`(stream_id, card_id)` plus contiguity of positions. -/
def wf (s : StreamState) : Prop := (cardIds s).Nodup ∧ contiguous s

instance (s : StreamState) : Decidable (wf s) := by
  unfold wf
  exact inferInstance

/-- The set of positions of a stream. -/
def posSet (s : StreamState) : Finset Int := (positions s).toFinset

theorem contiguous_posSet (s : StreamState) (h : contiguous s) :
    posSet s = (Finset.range s.length).image (fun k : Nat => (k : Int)) := by
  obtain ⟨hnd, hbd⟩ := h
  apply Finset.eq_of_subset_of_card_le
  · intro x hx
    rw [posSet, List.mem_toFinset, positions, List.mem_map] at hx
    obtain ⟨r, hr, hrx⟩ := hx
    obtain ⟨h0, h1⟩ := hbd r hr
    rw [Finset.mem_image]
    refine ⟨x.toNat, ?_, ?_⟩
    · rw [Finset.mem_range]
      omega
    · omega
  · have h1 : (posSet s).card = s.length := by
      rw [posSet, List.toFinset_card_of_nodup hnd, positions, List.length_map]
    have h2 : ((Finset.range s.length).image (fun k : Nat => (k : Int))).card
        = s.length := by
      rw [Finset.card_image_of_injective _ (fun a b h => by exact_mod_cast h),
        Finset.card_range]
    omega

theorem cardIds_mapPos (f : Int → Int) (s : StreamState) :
    cardIds (mapPos f s) = cardIds s := by
  induction s with
  | nil => rfl
  | cons a t ih =>
      simp only [mapPos, cardIds, List.map_cons] at *
      exact congrArg (a.cardId :: ·) ih

theorem positions_mapPos (f : Int → Int) (s : StreamState) :
    positions (mapPos f s) = (positions s).map f := by
  induction s with
  | nil => rfl
  | cons a t ih =>
      simp only [mapPos, positions, List.map_cons] at *
      exact congrArg (f a.position :: ·) ih

theorem mapPos_mapPos (f g : Int → Int) (s : StreamState) :
    mapPos f (mapPos g s) = mapPos (fun x => f (g x)) s := by
  induction s with
  | nil => rfl
  | cons a t ih =>
      simp only [mapPos, List.map_cons] at *
      exact congrArg ({ a with position := f (g a.position) } :: ·) ih

theorem mapPos_id (f : Int → Int) (s : StreamState) (hf : ∀ x, f x = x) :
    mapPos f s = s := by
  induction s with
  | nil => rfl
  | cons a t ih =>
      simp only [mapPos, List.map_cons] at *
      rw [hf a.position]
      exact congrArg (a :: ·) ih

theorem mem_cardIds (s : StreamState) (c : Nat) :
    c ∈ cardIds s ↔ ∃ r ∈ s, r.cardId = c := by
  simp [cardIds, List.mem_map, eq_comm]

theorem find?_cardId_eq_none (s : StreamState) (c : Nat)
    (hc : c ∉ cardIds s) : s.find? (fun q => q.cardId == c) = none := by
  rw [List.find?_eq_none]
  intro x hx
  simp only [beq_iff_eq]
  intro h
  exact hc ((mem_cardIds s c).mpr ⟨x, hx, h⟩)

theorem find?_cardId_map (s : StreamState) (c : Nat) (F : SC → SC)
    (hF : ∀ q, (F q).cardId = q.cardId) :
    (s.map F).find? (fun q => q.cardId == c)
      = (s.find? (fun q => q.cardId == c)).map F := by
  induction s with
  | nil => rfl
  | cons a t ih =>
      by_cases h : a.cardId = c
      · simp [List.find?_cons, hF, h]
      · simp [List.find?_cons, hF, h, ih]

/-- Claim C8: a Move whose target position equals the card's current
position and whose target depth equals its current depth takes the early
no-op branch of `StreamCard.reorderCard`: the result is `false`
("unchanged") and the returned stream state is the input state itself,
so no row is written. -/
theorem reorderCard_noop (s : StreamState) (c : Nat) (r : SC) (p d : Int)
    (hf : s.find? (fun q => q.cardId == c) = some r)
    (hp : r.position = p) (hd : r.depth = d) :
    reorderCard s c p (some d) = .ok (s, false) := by
  simp [reorderCard, hf, hp, hd]

/-- Witness for `reorderCard_noop` at a concrete stream. -/
theorem reorderCard_noop_witness :
    reorderCard [⟨4, 0, 1, false, false⟩, ⟨7, 1, 2, true, false⟩] 7 1
      (some 2) = .ok ([⟨4, 0, 1, false, false⟩, ⟨7, 1, 2, true, false⟩], false) :=
  reorderCard_noop _ 7 ⟨7, 1, 2, true, false⟩ 1 2 (by rfl) rfl rfl

theorem flipAI_cardId (c : Nat) (q : SC) : (flipAI c q).cardId = q.cardId := by
  by_cases h : q.cardId = c <;> simp [flipAI, h]

theorem flipCollapsed_cardId (c : Nat) (q : SC) :
    (flipCollapsed c q).cardId = q.cardId := by
  by_cases h : q.cardId = c <;> simp [flipCollapsed, h]

theorem flipAI_flipAI (c : Nat) (q : SC) : flipAI c (flipAI c q) = q := by
  obtain ⟨a, p, d, e, g⟩ := q
  by_cases h : a = c <;> simp [flipAI, h]

theorem flipCollapsed_flipCollapsed (c : Nat) (q : SC) :
    flipCollapsed c (flipCollapsed c q) = q := by
  obtain ⟨a, p, d, e, g⟩ := q
  by_cases h : a = c <;> simp [flipCollapsed, h]

theorem map_flipAI_flipAI (c : Nat) (s : StreamState) :
    (s.map (flipAI c)).map (flipAI c) = s := by
  rw [List.map_map]
  have h : ∀ q ∈ s, (flipAI c ∘ flipAI c) q = id q := by
    intro q _
    simp [flipAI_flipAI c q]
  rw [List.map_congr_left h, List.map_id]

theorem map_flipCollapsed_flipCollapsed (c : Nat) (s : StreamState) :
    (s.map (flipCollapsed c)).map (flipCollapsed c) = s := by
  rw [List.map_map]
  have h : ∀ q ∈ s, (flipCollapsed c ∘ flipCollapsed c) q = id q := by
    intro q _
    simp [flipCollapsed_flipCollapsed c q]
  rw [List.map_congr_left h, List.map_id]

theorem map_comp_flipAI (c : Nat) (s : StreamState) :
    s.map (flipAI c ∘ flipAI c) = s := by
  have h : ∀ q ∈ s, (flipAI c ∘ flipAI c) q = id q := by
    intro q _
    simp [flipAI_flipAI c q]
  rw [List.map_congr_left h, List.map_id]

theorem map_comp_flipCollapsed (c : Nat) (s : StreamState) :
    s.map (flipCollapsed c ∘ flipCollapsed c) = s := by
  have h : ∀ q ∈ s, (flipCollapsed c ∘ flipCollapsed c) q = id q := by
    intro q _
    simp [flipCollapsed_flipCollapsed c q]
  rw [List.map_congr_left h, List.map_id]

/-- Claim C10: `toggleAIContext` and `toggleCollapsed` are involutions on
the member row that modify only their own flag.  For a stream member `r`
of card `c`: each toggle returns the flipped flag value; applying the same
toggle a second time returns the original stream state and the original
flag value; a single toggle preserves every row's `cardId`, `position`,
`depth` and the respective other flag; and rows of other cards are left
untouched. -/
theorem toggle_involution (s : StreamState) (c : Nat) (r : SC)
    (hf : s.find? (fun q => q.cardId == c) = some r) :
    ∃ sA sC : StreamState,
      toggleAIContext s c = .ok (sA, !r.isInAIContext) ∧
      toggleAIContext sA c = .ok (s, r.isInAIContext) ∧
      toggleCollapsed s c = .ok (sC, !r.isCollapsed) ∧
      toggleCollapsed sC c = .ok (s, r.isCollapsed) ∧
      sA.map (fun q => (q.cardId, q.position, q.depth, q.isCollapsed))
        = s.map (fun q => (q.cardId, q.position, q.depth, q.isCollapsed)) ∧
      sC.map (fun q => (q.cardId, q.position, q.depth, q.isInAIContext))
        = s.map (fun q => (q.cardId, q.position, q.depth, q.isInAIContext)) ∧
      (∀ q ∈ sA, q.cardId ≠ c → q ∈ s) ∧
      (∀ q ∈ sC, q.cardId ≠ c → q ∈ s) := by
  have hrc : r.cardId = c := by
    have := List.find?_some hf
    simpa [beq_iff_eq] using this
  have hfA : (s.map (flipAI c)).find? (fun q => q.cardId == c)
      = some (flipAI c r) := by
    rw [find?_cardId_map s c (flipAI c) (flipAI_cardId c), hf, Option.map_some']
  have hfC : (s.map (flipCollapsed c)).find? (fun q => q.cardId == c)
      = some (flipCollapsed c r) := by
    rw [find?_cardId_map s c (flipCollapsed c) (flipCollapsed_cardId c), hf,
      Option.map_some']
  refine ⟨s.map (flipAI c), s.map (flipCollapsed c),
    ?_, ?_, ?_, ?_, ?_, ?_, ?_, ?_⟩
  · simp [toggleAIContext, hf]
  · simp [toggleAIContext, hfA, map_flipAI_flipAI, map_comp_flipAI, flipAI, hrc]
  · simp [toggleCollapsed, hf]
  · simp [toggleCollapsed, hfC, map_flipCollapsed_flipCollapsed,
      map_comp_flipCollapsed, flipCollapsed, hrc]
  · rw [List.map_map]
    refine List.map_congr_left ?_
    intro q _
    by_cases h : q.cardId = c <;> simp [flipAI, h]
  · rw [List.map_map]
    refine List.map_congr_left ?_
    intro q _
    by_cases h : q.cardId = c <;> simp [flipCollapsed, h]
  · intro q hq hqc
    obtain ⟨q0, hq0, hq0e⟩ := List.mem_map.mp hq
    subst hq0e
    by_cases h : q0.cardId = c
    · simp [flipAI, h] at hqc
    · simpa [flipAI, h] using hq0
  · intro q hq hqc
    obtain ⟨q0, hq0, hq0e⟩ := List.mem_map.mp hq
    subst hq0e
    by_cases h : q0.cardId = c
    · simp [flipCollapsed, h] at hqc
    · simpa [flipCollapsed, h] using hq0

/-- Witness for `toggle_involution` at a concrete one-row stream. -/
theorem toggle_involution_witness :
    ∃ sA sC : StreamState,
      toggleAIContext [(⟨3, 0, 0, true, false⟩ : SC)] 3 = .ok (sA, false) ∧
      toggleAIContext sA 3 = .ok ([⟨3, 0, 0, true, false⟩], true) ∧
      toggleCollapsed [(⟨3, 0, 0, true, false⟩ : SC)] 3 = .ok (sC, true) ∧
      toggleCollapsed sC 3 = .ok ([⟨3, 0, 0, true, false⟩], false) ∧
      sA.map (fun q => (q.cardId, q.position, q.depth, q.isCollapsed))
        = [(⟨3, 0, 0, true, false⟩ : SC)].map
            (fun q => (q.cardId, q.position, q.depth, q.isCollapsed)) ∧
      sC.map (fun q => (q.cardId, q.position, q.depth, q.isInAIContext))
        = [(⟨3, 0, 0, true, false⟩ : SC)].map
            (fun q => (q.cardId, q.position, q.depth, q.isInAIContext)) ∧
      (∀ q ∈ sA, q.cardId ≠ 3 → q ∈ [(⟨3, 0, 0, true, false⟩ : SC)]) ∧
      (∀ q ∈ sC, q.cardId ≠ 3 → q ∈ [(⟨3, 0, 0, true, false⟩ : SC)]) :=
  toggle_involution [⟨3, 0, 0, true, false⟩] 3 ⟨3, 0, 0, true, false⟩ (by rfl)

/-- Claim C4, counterexample: with card 1 already a member of the stream,
`CardFactory.addCardToStreamSafely` does not fail with a ValidationError -
it silently returns success with the stream unchanged, contradicting the
claim that both insertion strategies reject duplicate membership with a
ValidationError. -/
theorem addCardToStreamSafely_duplicate_no_error :
    addCardToStreamSafely [⟨1, 0, 0, false, false⟩] 1 (some 0)
      = Except.ok [⟨1, 0, 0, false, false⟩] := by
  rfl

/-- Claim C4, amended: when card `c` is already a member of stream `s`,
`StreamCard.addCardToStream` fails with a ValidationError (the thrown
message names the duplicate membership) and, the transaction aborting,
leaves membership and positions unchanged; `CardFactory.addCardToStreamSafely`
instead returns successfully with the stream state unchanged (a silent
no-op, not an error). -/
theorem duplicate_membership (s : StreamState) (c : Nat) (pos : Option Int)
    (depth : Int) (a b : Bool) (hc : c ∈ cardIds s) :
    addCardToStream s c pos depth a b
      = .error (.validationErr "Card already exists in this stream") ∧
    addCardToStreamSafely s c pos = .ok s := by
  constructor
  · simp [addCardToStream, hc]
  · simp [addCardToStreamSafely, hc]

/-- Witness for `duplicate_membership` at a concrete stream. -/
theorem duplicate_membership_witness :
    addCardToStream [(⟨5, 0, 0, false, false⟩ : SC)] 5 (some 1) 0 false false
      = .error (.validationErr "Card already exists in this stream") ∧
    addCardToStreamSafely [(⟨5, 0, 0, false, false⟩ : SC)] 5 (some 1)
      = .ok [⟨5, 0, 0, false, false⟩] :=
  duplicate_membership [⟨5, 0, 0, false, false⟩] 5 (some 1) 0 false false
    (by decide)

theorem shiftDownAfter_shiftUpFrom (p x : Int) :
    shiftDownAfter p (shiftUpFrom p x) = x := by
  simp only [shiftUpFrom, shiftDownAfter]
  split_ifs <;> omega

/-- Claim C6: on a well-formed stream, inserting a non-member card `c` at
any valid position `p` with `StreamCard.addCardToStream` and then
immediately removing it with `StreamCard.removeCardFromStream` restores
the exact pre-insert stream state - every remaining row, its position
included, is as before the insert. -/
theorem insert_remove_roundtrip (s : StreamState) (c : Nat) (p : Int)
    (depth : Int) (a b : Bool) (hwf : wf s) (hc : c ∉ cardIds s)
    (hp0 : 0 ≤ p) (hpn : p ≤ (s.length : Int)) :
    ∃ t row, addCardToStream s c (some p) depth a b = .ok (t, row) ∧
      removeCardFromStream t c = (s, true) := by
  refine ⟨mapPos (shiftUpFrom p) s ++ [⟨c, p, depth, a, b⟩],
          ⟨c, p, depth, a, b⟩, ?_, ?_⟩
  · simp [addCardToStream, hc]
  · have hnone : (mapPos (shiftUpFrom p) s).find? (fun q => q.cardId == c)
        = none := by
      apply find?_cardId_eq_none
      rw [cardIds_mapPos]
      exact hc
    have hfind : (mapPos (shiftUpFrom p) s ++ [(⟨c, p, depth, a, b⟩ : SC)]).find?
        (fun q => q.cardId == c) = some ⟨c, p, depth, a, b⟩ := by
      rw [List.find?_append, hnone]
      simp
    rw [removeCardFromStream, hfind]
    have hfil : (mapPos (shiftUpFrom p) s ++ [(⟨c, p, depth, a, b⟩ : SC)]).filter
        (fun q => q.cardId ≠ c) = mapPos (shiftUpFrom p) s := by
      rw [List.filter_append]
      have h1 : (mapPos (shiftUpFrom p) s).filter (fun q => q.cardId ≠ c)
          = mapPos (shiftUpFrom p) s := by
        rw [List.filter_eq_self]
        intro q hq
        simp only [ne_eq, decide_eq_true_eq]
        intro h
        apply hc
        rw [← cardIds_mapPos (shiftUpFrom p) s]
        exact (mem_cardIds _ c).mpr ⟨q, hq, h⟩
      have h2 : ([(⟨c, p, depth, a, b⟩ : SC)]).filter (fun q => q.cardId ≠ c)
          = [] := by
        simp
      rw [h1, h2, List.append_nil]
    simp only [hfil]
    rw [mapPos_mapPos]
    rw [mapPos_id _ s (fun x => shiftDownAfter_shiftUpFrom p x)]

/-- Witness for `insert_remove_roundtrip` at a concrete stream. -/
theorem insert_remove_roundtrip_witness :
    ∃ t row,
      addCardToStream
        [(⟨1, 0, 0, false, false⟩ : SC), ⟨2, 1, 0, false, true⟩] 9 (some 1)
        0 true false = .ok (t, row) ∧
      removeCardFromStream t 9
        = ([(⟨1, 0, 0, false, false⟩ : SC), ⟨2, 1, 0, false, true⟩], true) :=
  insert_remove_roundtrip [⟨1, 0, 0, false, false⟩, ⟨2, 1, 0, false, true⟩]
    9 1 0 true false (by decide) (by decide) (by decide) (by decide)

/-!
Background job queue (`backend/src/services/simpleJobQueue.js`).  The
queue holds at most one job in flight (`processNextJob` is strictly
sequential), so a single job's lifecycle is fully determined by the
outcomes of its successive handler executions.  The embedding tracks the
queue state restricted to one job: the job record, how many copies of its
id sit in the `pendingJobs` array, and (as an observation counter) how
many times `insertJobByPriority` has run for it - once at `addJob` and
once per retry re-insertion.  A handler timeout is routed through
`handleJobTimeout` to `handleJobError`, identically to a thrown error, so
an execution outcome is a single boolean.
-/

inductive JobStatus where
  | pending
  | processing
  | completed
  | failed
  | cancelled
deriving Repr, DecidableEq

/-- Constant `this.maxRetries = 3` (simpleJobQueue.js line 16). -/
def maxRetries : Nat := 3

/-- The in-memory job record fields the retry logic reads and writes. -/
structure QJob where
  status : JobStatus
  retryCount : Nat
deriving Repr, DecidableEq

/-- Queue state restricted to a single job: the job record, the number of
copies of its id in `pendingJobs`, and the number of
`insertJobByPriority` calls made for it so far. -/
structure QState where
  job : QJob
  pendingLen : Nat
  inserts : Nat
deriving Repr, DecidableEq

/-- Model of `addJob` (simpleJobQueue.js lines 60-109): the job is created with
status `pending` and `retryCount` 0 and inserted into the pending list. -/
def addJob : QState := ⟨⟨.pending, 0⟩, 1, 1⟩

/-- Model of `handleJobError` (simpleJobQueue.js lines 330-359): increment
`retryCount`; while `retryCount < maxRetries` revert the status to
`pending` and re-insert the job id into the pending list (after the
30-second backoff); otherwise mark the job permanently `failed`. -/
def handleJobError (q : QState) : QState :=
  let rc := q.job.retryCount + 1
  if rc < maxRetries then
    ⟨⟨.pending, rc⟩, q.pendingLen + 1, q.inserts + 1⟩
  else
    ⟨⟨.failed, rc⟩, q.pendingLen, q.inserts⟩

/-- Model of `processNextJob` (simpleJobQueue.js lines 194-247) as seen by this
job: nothing happens unless its id is in the pending list; otherwise the
id is shifted off, the status set to `processing`, and the handler
outcome decides between `completed` and `handleJobError`. -/
def processNextJob (q : QState) (handlerSucceeds : Bool) : QState :=
  if q.pendingLen = 0 then q
  else
    let q1 : QState :=
      ⟨⟨.processing, q.job.retryCount⟩, q.pendingLen - 1, q.inserts⟩
    if handlerSucceeds then
      ⟨⟨.completed, q1.job.retryCount⟩, q1.pendingLen, q1.inserts⟩
    else
      handleJobError q1

/-- The processing loop applied to a list of handler outcomes. -/
def runQueue (q : QState) : List Bool → QState
  | [] => q
  | o :: os => runQueue (processNextJob q o) os

theorem runQueue_append (q : QState) (l1 l2 : List Bool) :
    runQueue q (l1 ++ l2) = runQueue (runQueue q l1) l2 := by
  induction l1 generalizing q with
  | nil => rfl
  | cons o os ih => simp [runQueue, ih]

theorem runQueue_of_pendingLen_zero (q : QState) (os : List Bool)
    (h : q.pendingLen = 0) : runQueue q os = q := by
  induction os with
  | nil => rfl
  | cons o os ih => simp [runQueue, processNextJob, h, ih]

/-- Claim C5: a job whose handler fails (or times out) three times becomes
terminally `failed` with `retryCount = 3` and its id is never inserted
into the pending list a fourth time, whatever happens afterwards; after a
single failure the status is reverted to `pending`; and a job that fails
twice and then succeeds ends `completed` with `retryCount = 2`. -/
theorem job_retry_ceiling (rest : List Bool) :
    (runQueue addJob ([false, false, false] ++ rest)).job.status
      = .failed ∧
    (runQueue addJob ([false, false, false] ++ rest)).job.retryCount = 3 ∧
    (runQueue addJob ([false, false, false] ++ rest)).inserts = 3 ∧
    (runQueue addJob [false]).job.status = .pending ∧
    (runQueue addJob [false, false, true]).job.status = .completed ∧
    (runQueue addJob [false, false, true]).job.retryCount = 2 := by
  have h3 : runQueue addJob [false, false, false]
      = ⟨⟨.failed, 3⟩, 0, 3⟩ := by decide
  have hs : runQueue addJob ([false, false, false] ++ rest)
      = ⟨⟨.failed, 3⟩, 0, 3⟩ := by
    rw [runQueue_append, h3, runQueue_of_pendingLen_zero]
    rfl
  refine ⟨?_, ?_, ?_, ?_, ?_, ?_⟩
  · rw [hs]
  · rw [hs]
  · rw [hs]
  · decide
  · decide
  · decide

/-!
Card lifecycle (the `Card` model and `CardFactory`, src/unnamed/part_007).
The world state carries the `brains` and `cards` tables, the card files
written to disk, and a fresh-id counter standing in for the generated
primary keys.
-/

/-- A `brains` row, restricted to the columns `Card.create` touches. -/
structure Brain where
  id : Nat
  folderPath : String
  storageUsed : Int
deriving Repr, DecidableEq

/-- A `cards` row.  `card_type` exists as a database column (it is grouped
over by `CardFactory.getCreationStatistics`), but the INSERT of
`Card.create` omits it, leaving the column default. -/
structure CardRow where
  id : Nat
  brainId : Nat
  title : Option String
  filePath : Option String
  fileHash : Option String
  contentPreview : String
  fileSize : Int
  isActive : Bool
  cardType : String
deriving Repr, DecidableEq

/-- Database plus file-system state seen by the card lifecycle. -/
structure World where
  brains : List Brain
  cards : List CardRow
  files : List (String × String)
  nextCardId : Nat
deriving Repr, DecidableEq

/-- The `options` object of `Card.create`, with its documented fields and
their defaults (`content = ""`, `filePath = null`, `fileHash = null`,
`fileSize = 0`).  Extra option fields passed by the factories (such as
`cardType` and `streamId`) are ignored by `Card.create` and not
modelled. -/
structure CreateOptions where
  content : String
  filePath : Option String
  fileHash : Option String
  fileSize : Int
deriving Repr, DecidableEq

/-- Stand-in for the SHA-256 hex digest of `crypto.createHash`: the hash
value is only ever stored by the modelled operations, never inspected, so
an arbitrary injective function of the content is adequate. -/
def sha256hex (s : String) : String := s

/-- The JavaScript whitespace characters relevant to `String.trim` (the
common ones; exotic Unicode whitespace is not modelled). -/
def jsIsWhitespace (ch : Char) : Bool :=
  ch == ' ' || ch == Char.ofNat 9 || ch == Char.ofNat 10 || ch == Char.ofNat 13

/-- JavaScript `title.trim()`: strip leading and trailing whitespace.
Implemented structurally over the character list so that concrete
instances evaluate inside the kernel. -/
def jsTrim (s : String) : String :=
  ⟨((s.data.dropWhile jsIsWhitespace).reverse.dropWhile
      jsIsWhitespace).reverse⟩

/-- JavaScript `content.substring(0, n)` (the JS method counts UTF-16
units; the model counts code points, which agrees on all inputs used
here). -/
def jsSubstringTo (s : String) (n : Nat) : String := ⟨s.data.take n⟩

/-- JavaScript `String.toLowerCase` restricted to ASCII. -/
def jsToLower (s : String) : String := ⟨s.data.map Char.toLower⟩

/-- The markdown file name computed by `Card.create` (part_007 lines
544-546): drop characters other than letters, digits, whitespace and
hyphens, turn spaces into hyphens, lowercase, append `.md`.  (The JS
regex also collapses whitespace runs; the exact name plays no role in any
claim below.) -/
def cardFileName (t : String) : String :=
  jsToLower
    ((t.toList.filter (fun ch => ch.isAlphanum || ch == ' ' || ch == '-')).map
      (fun ch => if ch == ' ' then '-' else ch)).asString ++ ".md"

/-- The first title check of `Card.create`:
`!title || title.trim().length === 0`. -/
def titleMissing (title : Option String) : Bool :=
  match title with
  | none => true
  | some t => (jsTrim t).isEmpty

/-- Model of `Card.create` (part_007 lines 485-568): title validations, brain
lookup, case-sensitive duplicate-title check among the brain's active
cards, row insertion with a 500-character content preview, markdown file
write when content is given without a file path, and the brain storage
update - which adds `options.fileSize` (0 when the caller does not pass
it), not the byte length of `content`. -/
def Card.create (w : World) (brainId : Nat) (title : Option String)
    (opts : CreateOptions) : Except Err (World × CardRow) :=
  if titleMissing title then
    .error (.validationErr "Card title is required")
  else
    let t := title.getD ""
    if 200 < t.length then
      .error (.validationErr "Card title cannot exceed 200 characters")
    else
      match w.brains.find? (fun b2 => b2.id == brainId) with
      | none => .error (.notFoundErr "Brain not found")
      | some brain =>
          if w.cards.any (fun cr =>
              cr.brainId == brainId && cr.title == some (jsTrim t) && cr.isActive)
          then
            .error (.conflictErr "Card already exists in this brain")
          else
            let contentPreview := jsSubstringTo opts.content 500
            let calculatedHash :=
              if opts.content ≠ "" ∧ opts.fileHash = none then
                some (sha256hex opts.content)
              else opts.fileHash
            let row0 : CardRow :=
              ⟨w.nextCardId, brainId, some (jsTrim t), opts.filePath,
               calculatedHash, contentPreview, opts.fileSize, true, ""⟩
            let writeFile : Prop := opts.content ≠ "" ∧ opts.filePath = none
            let fp := brain.folderPath ++ "/cards/" ++ cardFileName t
            let row1 :=
              if writeFile then { row0 with filePath := some fp } else row0
            let files1 :=
              if writeFile then w.files ++ [(fp, opts.content)] else w.files
            let brains1 := w.brains.map (fun b2 =>
              if b2.id == brainId then
                { b2 with storageUsed := b2.storageUsed + opts.fileSize }
              else b2)
            .ok (⟨brains1, w.cards ++ [row1], files1, w.nextCardId + 1⟩, row1)

/-- The `storage_used` value of a brain. -/
def brainStorage (w : World) (brainId : Nat) : Option Int :=
  (w.brains.find? (fun b2 => b2.id == brainId)).map Brain.storageUsed

/-- A `Card` class instance as built by the constructor (part_007 lines
459-472).  The constructor copies only the listed row fields; in
particular it never assigns `this.cardType`, so reading `card.cardType`
on an instance built from a database row yields `undefined`, modelled as
`none`. -/
structure CardInstance where
  id : Nat
  brainId : Nat
  title : Option String
  filePath : Option String
  fileHash : Option String
  contentPreview : String
  fileSize : Int
  isActive : Bool
  cardType : Option String
deriving Repr, DecidableEq

/-- Constructor call `new Card(row)` of part_007 lines 460-472. -/
def cardFromRow (r : CardRow) : CardInstance :=
  ⟨r.id, r.brainId, r.title, r.filePath, r.fileHash, r.contentPreview,
   r.fileSize, r.isActive, none⟩

/-- Model of `Card.findById` (part_007 lines 575-582). -/
def Card.findById (w : World) (cardId : Nat) : Option CardInstance :=
  (w.cards.find? (fun r => r.id == cardId)).map cardFromRow

/-- Model of `CardFactory.convertUnsavedToSaved` (part_007 lines 137-152): look the
card up, reject a missing card, reject any card whose `cardType` differs
from `unsaved`.  The accepting branch would call
`card.convertToSaved(title)`, a method the `Card` model does not define;
since the constructor leaves `cardType` unset, no instance reaches that
branch, and it is modelled as the TypeError the missing method would
raise. -/
def convertUnsavedToSaved (w : World) (cardId : Nat) (title : String) :
    Except Err CardInstance :=
  match Card.findById w cardId with
  | none => .error (.notFoundErr "Card not found")
  | some card =>
      if card.cardType ≠ some "unsaved" then
        .error (.invalidStateErr "Only unsaved cards can be converted to saved")
      else
        .error (.typeErr "card.convertToSaved is not a function")

/-- Model of `CardFactory.createUnsavedCard` (part_007 lines 44-62): require a
stream id, call `Card.create` with `title = null` (`cardType` and
`streamId` ride along in `options`, which `Card.create` ignores), then
add the created card to the stream via `CardFactory.addCardToStream`. -/
def createUnsavedCard (w : World) (s : StreamState) (brainId : Nat)
    (streamId : String) (content : String) (pos : Option Int) :
    Except Err (World × StreamState × CardRow) :=
  if streamId.isEmpty then
    .error (.validationErr "Stream ID is required for unsaved cards")
  else
    match Card.create w brainId none ⟨content, none, none, 0⟩ with
    | .error e => .error e
    | .ok (w1, card) => .ok (w1, factoryAddCardToStream s card.id pos, card)

/-- Claim C2 (code bug): `CardFactory.createUnsavedCard` never succeeds.
For every world, stream, brain and content - the empty string included -
it throws `Card title is required`: it passes `title = null` to
`Card.create`, whose first validation rejects the missing title before
any database write, so no card is created and nothing reaches the stream
insertion.  The claim (like the factory's own documentation) says the
call succeeds with a null title and a stream membership at the requested
position. -/
theorem createUnsavedCard_always_fails (w : World) (s : StreamState)
    (brainId : Nat) (streamId : String) (content : String) (pos : Option Int)
    (hs : ¬ streamId.isEmpty = true) :
    createUnsavedCard w s brainId streamId content pos
      = .error (.validationErr "Card title is required") := by
  simp [createUnsavedCard, hs, Card.create, titleMissing]

/-- Witness for `createUnsavedCard_always_fails`: the spec's own scenario
`CreateUnsaved(brain, stream, "")`. -/
theorem createUnsavedCard_always_fails_witness :
    createUnsavedCard ⟨[⟨0, "b", 0⟩], [], [], 0⟩ [] 0 "s1" "" none
      = .error (.validationErr "Card title is required") :=
  createUnsavedCard_always_fails ⟨[⟨0, "b", 0⟩], [], [], 0⟩ [] 0 "s1" "" none
    (by decide)

/-- Claim C3 (code bug): `Card.create` at a concrete brain with content
"hello" and the caller not passing `fileSize` (as `createSavedCard` does
not) succeeds, writes the 5-byte content to a file, yet leaves the brain
storage counter at 0: the storage update adds `options.fileSize` (default
0), not the byte length of the written content. -/
theorem create_storage_not_content_bytes :
    ∃ w1 row, Card.create ⟨[⟨0, "b", 0⟩], [], [], 0⟩ 0 (some "T")
        ⟨"hello", none, none, 0⟩ = .ok (w1, row) ∧
      brainStorage w1 0 = some 0 ∧
      w1.files = [("b/cards/t.md", "hello")] ∧
      "hello".utf8ByteSize = 5 := by
  refine ⟨⟨[⟨0, "b", 0⟩],
           [⟨0, 0, some "T", some "b/cards/t.md", some "hello", "hello", 0,
             true, ""⟩],
           [("b/cards/t.md", "hello")], 1⟩,
          ⟨0, 0, some "T", some "b/cards/t.md", some "hello", "hello", 0,
           true, ""⟩, by simp only [Card.create]; decide,
          by decide, by decide, by decide⟩

/-- Claim C9: `Card.create` rejects any title longer than 200 characters
with a validation error thrown before the transaction opens, hence before
any database write (the embedding returns the error without touching the
world).  The message is `Card title cannot exceed 200 characters`, except
for an over-long all-whitespace title, which the earlier
`Card title is required` check rejects first - still a validation error
before any write. -/
theorem create_title_length_limit (w : World) (brainId : Nat) (t : String)
    (opts : CreateOptions) (hlen : 200 < t.length) :
    ∃ msg, Card.create w brainId (some t) opts
      = .error (.validationErr msg) := by
  by_cases h : (jsTrim t).isEmpty
  · exact ⟨"Card title is required", by simp [Card.create, titleMissing, h]⟩
  · exact ⟨"Card title cannot exceed 200 characters",
      by simp [Card.create, titleMissing, h, hlen]⟩

set_option maxRecDepth 4000 in
/-- Witness for `create_title_length_limit` with a 201-character title. -/
theorem create_title_length_limit_witness :
    ∃ msg, Card.create ⟨[⟨0, "b", 0⟩], [], [], 0⟩ 0
        (some (String.mk (List.replicate 201 'a'))) ⟨"", none, none, 0⟩
      = .error (.validationErr msg) :=
  create_title_length_limit ⟨[⟨0, "b", 0⟩], [], [], 0⟩ 0
    (String.mk (List.replicate 201 'a')) ⟨"", none, none, 0⟩ (by decide)

/-- Claim C7: `CardFactory.convertUnsavedToSaved` on an existing card
whose `card_type` column is `saved` fails with the InvalidStateError
`Only unsaved cards can be converted to saved`: the guard admits only
instances whose `cardType` reads `unsaved`, which a row of type `saved`
never satisfies (indeed the `Card` constructor never copies `card_type`,
so every instance fails the guard). -/
theorem convertUnsavedToSaved_rejects_saved (w : World) (cardId : Nat)
    (title : String) (row : CardRow)
    (hrow : w.cards.find? (fun r => r.id == cardId) = some row)
    (htype : row.cardType = "saved") :
    convertUnsavedToSaved w cardId title
      = .error (.invalidStateErr "Only unsaved cards can be converted to saved") := by
  simp [convertUnsavedToSaved, Card.findById, hrow, cardFromRow]

/-- Witness for `convertUnsavedToSaved_rejects_saved` at a concrete
world holding one saved card. -/
theorem convertUnsavedToSaved_rejects_saved_witness :
    convertUnsavedToSaved
      ⟨[⟨0, "b", 0⟩],
       [⟨7, 0, some "T", none, none, "", 0, true, "saved"⟩], [], 8⟩ 7 "New"
      = .error (.invalidStateErr "Only unsaved cards can be converted to saved") :=
  convertUnsavedToSaved_rejects_saved
    ⟨[⟨0, "b", 0⟩], [⟨7, 0, some "T", none, none, "", 0, true, "saved"⟩],
     [], 8⟩ 7 "New" ⟨7, 0, some "T", none, none, "", 0, true, "saved"⟩
    (by rfl) rfl

/-!
Claim C1: preservation of the contiguity invariant.  The remaining
development proves that every ledger operation preserves `wf`, provided
each insert's requested position lies in `[0, count]` - and exhibits the
counterexample that forces that proviso: the source accepts any requested
insert position and silently creates a gap for positions beyond the
count.
-/

theorem le_foldl_max (l : List Int) (a : Int) : a ≤ l.foldl max a := by
  induction l generalizing a with
  | nil => exact le_refl a
  | cons x xs ih => exact le_trans (le_max_left a x) (ih (max a x))

theorem mem_le_foldl_max :
    ∀ (l : List Int) (a x : Int), x ∈ l → x ≤ l.foldl max a
  | [], _, _, hx => absurd hx (List.not_mem_nil _)
  | y :: ys, a, x, hx => by
      rcases List.mem_cons.mp hx with h | h
      · subst h
        exact le_trans (le_max_right a x) (le_foldl_max ys (max a x))
      · exact mem_le_foldl_max ys (max a y) x h

theorem foldl_max_le :
    ∀ (l : List Int) (a b : Int), a ≤ b → (∀ x ∈ l, x ≤ b) →
      l.foldl max a ≤ b
  | [], _, _, ha, _ => ha
  | y :: ys, a, b, ha, hl => by
      exact foldl_max_le ys (max a y) b (max_le ha (hl y (by simp)))
        (fun x hx => hl x (by simp [hx]))

theorem le_sqlMax (l : List Int) (d x : Int) (hx : x ∈ l) : x ≤ sqlMax l d := by
  cases l with
  | nil => cases hx
  | cons y ys =>
      simp only [sqlMax]
      rcases List.mem_cons.mp hx with h | h
      · subst h
        exact le_foldl_max ys x
      · exact mem_le_foldl_max ys y x h

theorem sqlMax_le (l : List Int) (d b : Int) (hd : d ≤ b)
    (hl : ∀ x ∈ l, x ≤ b) : sqlMax l d ≤ b := by
  cases l with
  | nil => exact hd
  | cons y ys =>
      simp only [sqlMax]
      exact foldl_max_le ys y b (hl y (by simp))
        (fun x hx => hl x (by simp [hx]))

theorem cardIds_append (s t : StreamState) :
    cardIds (s ++ t) = cardIds s ++ cardIds t := by
  simp [cardIds]

theorem positions_append (s t : StreamState) :
    positions (s ++ t) = positions s ++ positions t := by
  simp [positions]

theorem length_mapPos (f : Int → Int) (s : StreamState) :
    (mapPos f s).length = s.length := by
  simp [mapPos]

theorem pos_injOn (s : StreamState) (h : (positions s).Nodup) :
    ∀ x ∈ s, ∀ y ∈ s, x.position = y.position → x = y := by
  intro x hx y hy hxy
  exact List.inj_on_of_nodup_map h hx hy hxy

theorem card_injOn (s : StreamState) (h : (cardIds s).Nodup) :
    ∀ x ∈ s, ∀ y ∈ s, x.cardId = y.cardId → x = y := by
  intro x hx y hy hxy
  exact List.inj_on_of_nodup_map h hx hy hxy

theorem shiftUpFrom_injective (p : Int) :
    Function.Injective (shiftUpFrom p) := by
  intro x y h
  simp only [shiftUpFrom] at h
  split_ifs at h <;> omega

theorem shiftUpFrom_ne (p x : Int) : shiftUpFrom p x ≠ p := by
  simp only [shiftUpFrom]
  split_ifs <;> omega

/-- The position bounds of `COALESCE(MAX(position), -1)` on a well-formed
stream. -/
theorem maxPos_bounds (s : StreamState) (hwf : wf s) :
    -1 ≤ sqlMax (positions s) (-1) ∧
    sqlMax (positions s) (-1) ≤ (s.length : Int) - 1 := by
  obtain ⟨-, -, hbd⟩ := hwf
  constructor
  · cases s with
    | nil => simp [positions, sqlMax]
    | cons q t =>
        have hmem : q.position ∈ positions (q :: t) := by simp [positions]
        have h0 := (hbd q (by simp)).1
        have := le_sqlMax (positions (q :: t)) (-1) q.position hmem
        omega
  · apply sqlMax_le
    · have : (0 : Int) ≤ (s.length : Int) := Int.ofNat_nonneg _
      omega
    · intro x hx
      obtain ⟨r, hr, hrx⟩ := List.mem_map.mp hx
      have := (hbd r hr).2
      omega

/-- Core preservation fact for the shift-and-insert strategy of
`StreamCard.addCardToStream`: inserting at a requested position within
`[0, count]` keeps the stream well formed. -/
theorem wf_insert_core (s : StreamState) (c : Nat) (p depth : Int)
    (fa fb : Bool) (hwf : wf s) (hc : c ∉ cardIds s) (hp0 : 0 ≤ p)
    (hpn : p ≤ (s.length : Int)) :
    wf (mapPos (shiftUpFrom p) s ++ [⟨c, p, depth, fa, fb⟩]) := by
  obtain ⟨hcard, hpos, hbd⟩ := hwf
  refine ⟨?_, ?_, ?_⟩
  · rw [cardIds_append, cardIds_mapPos]
    refine List.nodup_append.mpr ⟨hcard, by simp [cardIds], ?_⟩
    intro x hx hx2
    have hxc : x = c := by simpa [cardIds] using hx2
    subst hxc
    exact hc hx
  · rw [positions_append, positions_mapPos]
    refine List.nodup_append.mpr
      ⟨hpos.map (shiftUpFrom_injective p), by simp [positions], ?_⟩
    intro x hx hx2
    have hxp : x = p := by simpa [positions] using hx2
    obtain ⟨y, hy, hyx⟩ := List.mem_map.mp hx
    exact shiftUpFrom_ne p y (hyx.trans hxp)
  · intro r hr
    have hlen : ((mapPos (shiftUpFrom p) s
        ++ [(⟨c, p, depth, fa, fb⟩ : SC)]).length : Int)
        = (s.length : Int) + 1 := by
      simp [List.length_append, length_mapPos]
    rw [hlen]
    have hmem : r.position ∈ positions (mapPos (shiftUpFrom p) s
        ++ [(⟨c, p, depth, fa, fb⟩ : SC)]) := List.mem_map_of_mem _ hr
    rw [positions_append, positions_mapPos] at hmem
    rcases List.mem_append.mp hmem with h | h
    · obtain ⟨y, hy, hyx⟩ := List.mem_map.mp h
      obtain ⟨q, hq, hqy⟩ := List.mem_map.mp hy
      obtain ⟨h0, h1⟩ := hbd q hq
      rw [← hyx, ← hqy]
      simp only [shiftUpFrom]
      split_ifs <;> constructor <;> omega
    · have hp : r.position = p := by simpa [positions] using h
      rw [hp]
      constructor <;> omega

/-- Lemma: `StreamCard.addCardToStream` preserves well-formedness whenever the
requested position (when explicit) lies in `[0, count]`. -/
theorem wf_addCardToStream (s : StreamState) (c : Nat) (pos : Option Int)
    (depth : Int) (fa fb : Bool) (t : StreamState) (row : SC) (hwf : wf s)
    (hin : ∀ p, pos = some p → 0 ≤ p ∧ p ≤ (s.length : Int))
    (h : addCardToStream s c pos depth fa fb = .ok (t, row)) : wf t := by
  by_cases hc : c ∈ cardIds s
  · simp [addCardToStream, hc] at h
  · cases pos with
    | none =>
        obtain ⟨hm0, hm1⟩ := maxPos_bounds s hwf
        simp only [addCardToStream, hc, if_false, Except.ok.injEq,
          Prod.mk.injEq] at h
        obtain ⟨ht, -⟩ := h
        subst ht
        exact wf_insert_core s c _ depth fa fb hwf hc (by omega) (by omega)
    | some p =>
        obtain ⟨hp0, hpn⟩ := hin p rfl
        simp only [addCardToStream, hc, if_false, Except.ok.injEq,
          Prod.mk.injEq] at h
        obtain ⟨ht, -⟩ := h
        subst ht
        exact wf_insert_core s c p depth fa fb hwf hc hp0 hpn

theorem cardIds_map_of_preserve (F : SC → SC)
    (hF : ∀ q, (F q).cardId = q.cardId) (s : StreamState) :
    cardIds (s.map F) = cardIds s := by
  simp only [cardIds, List.map_map]
  exact List.map_congr_left (fun q _ => hF q)

/-- Deleting the unique row of card `c` removes exactly one row. -/
theorem length_filter_ne (s : StreamState) (c : Nat) :
    (cardIds s).Nodup → ∀ r : SC, r ∈ s → r.cardId = c →
      (s.filter (fun q => q.cardId ≠ c)).length + 1 = s.length := by
  induction s with
  | nil =>
      intro _ r hr
      cases hr
  | cons a t ih =>
      intro hnd r hr hrc
      have hnd2 : a.cardId ∉ cardIds t ∧ (cardIds t).Nodup := by
        simpa [cardIds] using hnd
      rcases List.mem_cons.mp hr with h | h
      · subst h
        have hfa : ¬ (r.cardId ≠ c) := by simp [hrc]
        simp [List.filter_cons, hfa]
        intro q hq hqc
        exact hnd2.1 ((mem_cardIds t r.cardId).mpr ⟨q, hq, by omega⟩)
      · have hac : a.cardId ≠ c := by
          intro hacc
          exact hnd2.1 ((mem_cardIds t a.cardId).mpr ⟨r, h, by omega⟩)
        have h2 := ih hnd2.2 r h hrc
        simp at h2
        simp [List.filter_cons, hac]
        omega

/-- Lemma: `StreamCard.removeCardFromStream` preserves well-formedness
unconditionally. -/
theorem wf_removeCardFromStream (s : StreamState) (c : Nat) (hwf : wf s) :
    wf (removeCardFromStream s c).1 := by
  obtain ⟨hcard, hpos, hbd⟩ := hwf
  rcases hfind : s.find? (fun q => q.cardId == c) with _ | r
  · simp only [removeCardFromStream, hfind]
    exact ⟨hcard, hpos, hbd⟩
  · have hr : r ∈ s := List.mem_of_find?_eq_some hfind
    have hrc : r.cardId = c := by simpa using List.find?_some hfind
    simp only [removeCardFromStream, hfind]
    have hsub : (s.filter (fun q => q.cardId ≠ c)).Sublist s :=
      List.filter_sublist s
    have hmemrem : ∀ q ∈ s.filter (fun q => q.cardId ≠ c),
        q ∈ s ∧ q.cardId ≠ c := by
      intro q hq
      have h1 := List.mem_filter.mp hq
      exact ⟨h1.1, by simpa using h1.2⟩
    have hnerem : ∀ q ∈ s.filter (fun q => q.cardId ≠ c),
        q.position ≠ r.position := by
      intro q hq hqp
      obtain ⟨hqs, hqc⟩ := hmemrem q hq
      exact hqc ((pos_injOn s hpos q hqs r hr hqp) ▸ hrc)
    have hlen : (s.filter (fun q => q.cardId ≠ c)).length + 1 = s.length :=
      length_filter_ne s c hcard r hr hrc
    refine ⟨?_, ?_, ?_⟩
    · rw [cardIds_mapPos]
      exact List.Nodup.sublist (hsub.map SC.cardId) hcard
    · rw [positions_mapPos]
      refine List.Nodup.map_on ?_
        (List.Nodup.sublist (hsub.map SC.position) hpos)
      intro x hx y hy hxy
      obtain ⟨qx, hqx, hqxe⟩ := List.mem_map.mp hx
      obtain ⟨qy, hqy, hqye⟩ := List.mem_map.mp hy
      have hxne : x ≠ r.position := hqxe ▸ hnerem qx hqx
      have hyne : y ≠ r.position := hqye ▸ hnerem qy hqy
      simp only [shiftDownAfter] at hxy
      split_ifs at hxy <;> omega
    · intro q hq
      have hlen2 : ((mapPos (shiftDownAfter r.position)
          (s.filter (fun q => q.cardId ≠ c))).length : Int)
          = (s.length : Int) - 1 := by
        rw [length_mapPos]
        omega
      rw [hlen2]
      have hmem : q.position ∈ positions (mapPos (shiftDownAfter r.position)
          (s.filter (fun q => q.cardId ≠ c))) := List.mem_map_of_mem _ hq
      rw [positions_mapPos] at hmem
      obtain ⟨y, hy, hyx⟩ := List.mem_map.mp hmem
      obtain ⟨qy, hqy, hqye⟩ := List.mem_map.mp hy
      obtain ⟨h0, h1⟩ := hbd qy (hmemrem qy hqy).1
      have hyne : qy.position ≠ r.position := hnerem qy hqy
      obtain ⟨hr0, hr1⟩ := hbd r hr
      rw [← hyx, ← hqye]
      simp only [shiftDownAfter]
      split_ifs <;> constructor <;> omega

/-- Core preservation fact for `StreamCard.reorderCard`: shifting the
traversed range with any position map `g` that is injective away from the
moved row, avoids the target position, and stays in bounds, and then
writing the moved row to the target position keeps the stream well
formed. -/
theorem wf_move_core (s : StreamState) (c : Nat) (r : SC) (newPos : Int)
    (df : SC → Int) (g : Int → Int) (hwf : wf s) (hr : r ∈ s)
    (hrc : r.cardId = c)
    (hg_inj : ∀ x y, x ≠ r.position → y ≠ r.position → g x = g y → x = y)
    (hg_ne : ∀ x, x ≠ r.position → g x ≠ newPos)
    (hg_bd : ∀ x, 0 ≤ x → x < (s.length : Int) → x ≠ r.position →
      0 ≤ g x ∧ g x < (s.length : Int))
    (hnp0 : 0 ≤ newPos) (hnpn : newPos < (s.length : Int)) :
    wf ((mapPos g s).map (fun q =>
      if q.cardId == c then
        { q with position := newPos, depth := df q }
      else q)) := by
  obtain ⟨hcard, hpos, hbd⟩ := hwf
  have hsnd : s.Nodup := List.Nodup.of_map SC.cardId hcard
  have hFcard : ∀ q : SC,
      ((fun q => if q.cardId == c then
          { q with position := newPos, depth := df q }
        else q) q).cardId = q.cardId := by
    intro q
    by_cases h : q.cardId = c <;> simp [h]
  have hothers : ∀ q ∈ s, q.cardId ≠ c → q.position ≠ r.position := by
    intro q hq hqc hqp
    exact hqc ((pos_injOn s hpos q hq r hr hqp) ▸ hrc)
  have hposeq : positions ((mapPos g s).map (fun q =>
      if q.cardId == c then
        { q with position := newPos, depth := df q }
      else q)) = s.map (fun q =>
        if q.cardId = c then newPos else g q.position) := by
    simp only [positions, mapPos, List.map_map]
    refine List.map_congr_left ?_
    intro q _
    by_cases h : q.cardId = c <;> simp [h]
  refine ⟨?_, ?_, ?_⟩
  · rw [cardIds_map_of_preserve _ hFcard, cardIds_mapPos]
    exact hcard
  · rw [hposeq]
    refine List.Nodup.map_on ?_ hsnd
    intro q1 hq1 q2 hq2 heq
    by_cases c1 : q1.cardId = c <;> by_cases c2 : q2.cardId = c <;>
      simp only [c1, c2, if_pos, if_neg, if_true, if_false] at heq
    · exact card_injOn s hcard q1 hq1 q2 hq2 (c1.trans c2.symm)
    · exact absurd heq.symm (hg_ne q2.position (hothers q2 hq2 c2))
    · exact absurd heq (hg_ne q1.position (hothers q1 hq1 c1))
    · exact pos_injOn s hpos q1 hq1 q2 hq2
        (hg_inj q1.position q2.position (hothers q1 hq1 c1)
          (hothers q2 hq2 c2) heq)
  · intro q hq
    have hlen : (((mapPos g s).map (fun q =>
        if q.cardId == c then
          { q with position := newPos, depth := df q }
        else q)).length : Int) = (s.length : Int) := by
      simp [length_mapPos]
    rw [hlen]
    have hmem : q.position ∈ positions ((mapPos g s).map (fun q =>
        if q.cardId == c then
          { q with position := newPos, depth := df q }
        else q)) := List.mem_map_of_mem _ hq
    rw [hposeq] at hmem
    obtain ⟨qy, hqy, hqye⟩ := List.mem_map.mp hmem
    rw [← hqye]
    by_cases hyc : qy.cardId = c
    · simp only [hyc, if_true]
      exact ⟨hnp0, hnpn⟩
    · simp only [hyc, if_false]
      obtain ⟨h0, h1⟩ := hbd qy hqy
      exact hg_bd qy.position h0 h1 (hothers qy hqy hyc)

/-- Lemma: `StreamCard.reorderCard` preserves well-formedness unconditionally:
the operation validates the target position itself and throws (rolling
the transaction back) when it is out of range. -/
theorem wf_reorderCard (s : StreamState) (c : Nat) (newPos : Int)
    (nd : Option Int) (t : StreamState) (moved : Bool) (hwf : wf s)
    (h : reorderCard s c newPos nd = .ok (t, moved)) : wf t := by
  rcases hfind : s.find? (fun q => q.cardId == c) with _ | r
  · simp [reorderCard, hfind] at h
  · have hr : r ∈ s := List.mem_of_find?_eq_some hfind
    have hrc : r.cardId = c := by simpa using List.find?_some hfind
    simp only [reorderCard, hfind] at h
    by_cases hnoop : r.position = newPos ∧ (nd = none ∨ nd = some r.depth)
    · rw [if_pos hnoop] at h
      simp only [Except.ok.injEq, Prod.mk.injEq] at h
      obtain ⟨ht, -⟩ := h
      subst ht
      exact hwf
    · rw [if_neg hnoop] at h
      by_cases hval : newPos < 0 ∨ sqlMax (positions s) 0 < newPos
      · rw [if_pos hval] at h
        simp at h
      · rw [if_neg hval] at h
        push_neg at hval
        have hn1 : 0 < s.length := List.length_pos.mpr
          (List.ne_nil_of_mem hr)
        have hmaxle : sqlMax (positions s) 0 ≤ (s.length : Int) - 1 := by
          apply sqlMax_le
          · omega
          · intro x hx
            obtain ⟨q2, hq2, hq2e⟩ := List.mem_map.mp hx
            have := (hwf.2.2 q2 hq2).2
            omega
        have hnp0 : 0 ≤ newPos := hval.1
        have hnpn : newPos < (s.length : Int) := by
          have := hval.2
          omega
        obtain ⟨hrp0, hrp1⟩ := hwf.2.2 r hr
        by_cases hdir : r.position = newPos
        · rw [if_pos hdir] at h
          simp only [Except.ok.injEq, Prod.mk.injEq] at h
          obtain ⟨ht, -⟩ := h
          subst ht
          clear hnoop
          have hcore := wf_move_core s c r newPos
            (fun q => match nd with | none => q.depth | some d => d)
            (fun x => x) hwf hr hrc
            (fun x y _ _ hxy => hxy)
            (fun x hx => by
              show x ≠ newPos
              omega)
            (fun x h0 h1 _ => ⟨h0, h1⟩) hnp0 hnpn
          rwa [mapPos_id (fun x => x) s (fun x => rfl)] at hcore
        · by_cases hlt : r.position < newPos
          · rw [if_neg hdir, if_pos hlt] at h
            simp only [Except.ok.injEq, Prod.mk.injEq] at h
            obtain ⟨ht, -⟩ := h
            subst ht
            clear hnoop
            exact wf_move_core s c r newPos
              (fun q => match nd with | none => q.depth | some d => d)
              (shiftRangeDown r.position newPos) hwf hr hrc
              (by
                intro x y hx hy hxy
                simp only [shiftRangeDown] at hxy
                split_ifs at hxy <;> omega)
              (by
                intro x hx
                simp only [shiftRangeDown]
                split_ifs <;> omega)
              (by
                intro x h0 h1 hx
                simp only [shiftRangeDown]
                split_ifs <;> constructor <;> omega)
              hnp0 hnpn
          · have hgt : newPos < r.position := by omega
            rw [if_neg hdir, if_neg hlt] at h
            simp only [Except.ok.injEq, Prod.mk.injEq] at h
            obtain ⟨ht, -⟩ := h
            subst ht
            clear hnoop
            exact wf_move_core s c r newPos
              (fun q => match nd with | none => q.depth | some d => d)
              (shiftRangeUp newPos r.position) hwf hr hrc
              (by
                intro x y hx hy hxy
                simp only [shiftRangeUp] at hxy
                split_ifs at hxy <;> omega)
              (by
                intro x hx
                simp only [shiftRangeUp]
                split_ifs <;> omega)
              (by
                intro x h0 h1 hx
                simp only [shiftRangeUp]
                split_ifs <;> constructor <;> omega)
              hnp0 hnpn

theorem cardIds_cons (r : SC) (s : StreamState) :
    cardIds (r :: s) = r.cardId :: cardIds s := rfl

theorem positions_cons (r : SC) (s : StreamState) :
    positions (r :: s) = r.position :: positions s := rfl

theorem assign_length (skip : Int) (l : List SC) :
    ∀ n : Int, (assignPositionsFrom skip n l).length = l.length := by
  induction l with
  | nil =>
      intro n
      rfl
  | cons r rs ih =>
      intro n
      by_cases hns : n = skip <;> simp [assignPositionsFrom, hns, ih]

theorem assign_cardIds (skip : Int) (l : List SC) :
    ∀ n : Int, cardIds (assignPositionsFrom skip n l) = cardIds l := by
  induction l with
  | nil =>
      intro n
      rfl
  | cons r rs ih =>
      intro n
      by_cases hns : n = skip <;>
        simp [assignPositionsFrom, hns, cardIds_cons, ih]

/-- The position column of one step of the renumbering loop. -/
theorem assign_cons (skip n : Int) (r : SC) (rs : List SC) :
    positions (assignPositionsFrom skip n (r :: rs))
      = (if n = skip then n + 1 else n)
        :: positions (assignPositionsFrom skip
            ((if n = skip then n + 1 else n) + 1) rs) := by
  by_cases hns : n = skip <;> simp [assignPositionsFrom, hns, positions_cons]

/-- Values produced by the renumbering loop once the counter has passed
`skip`: consecutive integers starting at the counter. -/
theorem assign_pos_gt (skip : Int) (l : List SC) :
    ∀ n : Int, skip < n →
      (∀ x ∈ positions (assignPositionsFrom skip n l),
        n ≤ x ∧ x < n + (l.length : Int)) ∧
      (positions (assignPositionsFrom skip n l)).Pairwise (· < ·) := by
  induction l with
  | nil =>
      intro n _
      simp [assignPositionsFrom, positions]
  | cons r rs ih =>
      intro n hn
      have hns : ¬ n = skip := by omega
      obtain ⟨ihb, ihp⟩ := ih (n + 1) (by omega)
      rw [assign_cons, if_neg hns]
      constructor
      · intro x hx
        rcases List.mem_cons.mp hx with h | h
        · subst h
          simp only [List.length_cons]
          push_cast
          omega
        · obtain ⟨hb1, hb2⟩ := ihb x h
          simp only [List.length_cons]
          push_cast
          constructor <;> omega
      · refine List.pairwise_cons.mpr ⟨?_, ihp⟩
        intro y hy
        have := (ihb y hy).1
        omega

/-- Values produced by the renumbering loop while the counter has not yet
passed `skip`: strictly increasing, within `[n, n + length]`, and never
equal to `skip`. -/
theorem assign_pos_le (skip : Int) (l : List SC) :
    ∀ n : Int, n ≤ skip →
      (∀ x ∈ positions (assignPositionsFrom skip n l),
        n ≤ x ∧ x ≤ n + (l.length : Int) ∧ x ≠ skip) ∧
      (positions (assignPositionsFrom skip n l)).Pairwise (· < ·) := by
  induction l with
  | nil =>
      intro n _
      simp [assignPositionsFrom, positions]
  | cons r rs ih =>
      intro n hn
      by_cases hns : n = skip
      · obtain ⟨ihb, ihp⟩ := assign_pos_gt skip rs (n + 1 + 1) (by omega)
        rw [assign_cons, if_pos hns]
        constructor
        · intro x hx
          rcases List.mem_cons.mp hx with h | h
          · subst h
            simp only [List.length_cons]
            push_cast
            omega
          · obtain ⟨hb1, hb2⟩ := ihb x h
            simp only [List.length_cons]
            push_cast
            refine ⟨by omega, by omega, by omega⟩
        · refine List.pairwise_cons.mpr ⟨?_, ihp⟩
          intro y hy
          have := (ihb y hy).1
          omega
      · obtain ⟨ihb, ihp⟩ := ih (n + 1) (by omega)
        rw [assign_cons, if_neg hns]
        constructor
        · intro x hx
          rcases List.mem_cons.mp hx with h | h
          · subst h
            simp only [List.length_cons]
            push_cast
            omega
          · obtain ⟨hb1, hb2, hb3⟩ := ihb x h
            simp only [List.length_cons]
            push_cast
            refine ⟨by omega, by omega, by omega⟩
        · refine List.pairwise_cons.mpr ⟨?_, ihp⟩
          intro y hy
          have := (ihb y hy).1
          omega

/-- Lemma: `CardFactory.addCardToStreamSafely` preserves well-formedness whenever
the requested position (when explicit) lies in `[0, count]`. -/
theorem wf_addCardToStreamSafely (s : StreamState) (c : Nat)
    (pos : Option Int) (t : StreamState) (hwf : wf s)
    (hin : ∀ p, pos = some p → 0 ≤ p ∧ p ≤ (s.length : Int))
    (h : addCardToStreamSafely s c pos = .ok t) : wf t := by
  by_cases hc : c ∈ cardIds s
  · simp only [addCardToStreamSafely, if_pos hc, Except.ok.injEq] at h
    exact h ▸ hwf
  · cases pos with
    | none =>
        simp only [addCardToStreamSafely, if_neg hc, Except.ok.injEq] at h
        subst h
        obtain ⟨hm0, hm1⟩ := maxPos_bounds s hwf
        obtain ⟨hcard, hpos, hbd⟩ := hwf
        refine ⟨?_, ?_, ?_⟩
        · rw [cardIds_append]
          refine List.nodup_append.mpr ⟨hcard, by simp [cardIds], ?_⟩
          intro x hx hx2
          have hxc : x = c := by simpa [cardIds] using hx2
          exact hc (hxc ▸ hx)
        · rw [positions_append]
          refine List.nodup_append.mpr ⟨hpos, by simp [positions], ?_⟩
          intro x hx hx2
          have hxp : x = sqlMax (positions s) (-1) + 1 := by
            simpa [positions] using hx2
          have := le_sqlMax (positions s) (-1) x hx
          omega
        · intro q hq
          have hlen : ((s ++ [(⟨c, sqlMax (positions s) (-1) + 1, 0,
              false, false⟩ : SC)]).length : Int) = (s.length : Int) + 1 := by
            simp
          rw [hlen]
          have hmem : q.position ∈ positions (s ++ [(⟨c,
              sqlMax (positions s) (-1) + 1, 0, false, false⟩ : SC)]) :=
            List.mem_map_of_mem _ hq
          rw [positions_append] at hmem
          rcases List.mem_append.mp hmem with hmm | hmm
          · obtain ⟨q2, hq2, hq2e⟩ := List.mem_map.mp hmm
            obtain ⟨h0, h1⟩ := hbd q2 hq2
            rw [← hq2e]
            constructor <;> omega
          · have hp : q.position = sqlMax (positions s) (-1) + 1 := by
              simpa [positions] using hmm
            rw [hp]
            constructor <;> omega
    | some p =>
        obtain ⟨hp0, hpn⟩ := hin p rfl
        simp only [addCardToStreamSafely, if_neg hc, Except.ok.injEq] at h
        subst h
        obtain ⟨hcard, hpos, hbd⟩ := hwf
        have hperm : List.Perm (sortByPosition s) s :=
          List.perm_insertionSort _ s
        have hlensort : (sortByPosition s).length = s.length :=
          hperm.length_eq
        have hcardsort : (cardIds (sortByPosition s)).Nodup :=
          ((hperm.map SC.cardId).nodup_iff).mpr hcard
        obtain ⟨hvals, hpw⟩ := assign_pos_le p (sortByPosition s) 0 hp0
        have hnodA : (positions (assignPositionsFrom p 0
            (sortByPosition s))).Nodup :=
          hpw.imp (fun hlt2 => ne_of_lt hlt2)
        refine ⟨?_, ?_, ?_⟩
        · rw [cardIds_append, assign_cardIds]
          refine List.nodup_append.mpr ⟨hcardsort, by simp [cardIds], ?_⟩
          intro x hx hx2
          have hxc : x = c := by simpa [cardIds] using hx2
          subst hxc
          exact hc ((hperm.map SC.cardId).mem_iff.mp hx)
        · rw [positions_append]
          refine List.nodup_append.mpr ⟨hnodA, by simp [positions], ?_⟩
          intro x hx hx2
          have hxp : x = p := by simpa [positions] using hx2
          exact (hvals x hx).2.2 hxp
        · intro q hq
          have hlen : ((assignPositionsFrom p 0 (sortByPosition s)
              ++ [(⟨c, p, 0, false, false⟩ : SC)]).length : Int)
              = (s.length : Int) + 1 := by
            simp [assign_length, hlensort]
          rw [hlen]
          have hmem : q.position ∈ positions (assignPositionsFrom p 0
              (sortByPosition s) ++ [(⟨c, p, 0, false, false⟩ : SC)]) :=
            List.mem_map_of_mem _ hq
          rw [positions_append] at hmem
          rcases List.mem_append.mp hmem with hmm | hmm
          · obtain ⟨h0, h1, h2⟩ := hvals q.position hmm
            rw [hlensort] at h1
            constructor <;> omega
          · have hp2 : q.position = p := by simpa [positions] using hmm
            rw [hp2]
            constructor <;> omega

/-- The ledger mutations of claim C1, acting on one stream: the two
insertion strategies present in the source, removal, and reordering. -/
inductive LedgerOp where
  | insert (cardId : Nat) (pos : Option Int) (depth : Int)
  | insertSafely (cardId : Nat) (pos : Option Int)
  | remove (cardId : Nat)
  | move (cardId : Nat) (newPos : Int) (newDepth : Option Int)
deriving Repr, DecidableEq

/-- Dispatch one operation, keeping only the stream state. -/
def applyOp (s : StreamState) : LedgerOp → Except Err StreamState
  | .insert c p d => (addCardToStream s c p d false false).map Prod.fst
  | .insertSafely c p => addCardToStreamSafely s c p
  | .remove c => .ok (removeCardFromStream s c).1
  | .move c p d => (reorderCard s c p d).map Prod.fst

/-- One request of a sequence: a thrown error aborts the transaction and
leaves the stream unchanged; only operations that complete successfully
change it. -/
def stepState (s : StreamState) (op : LedgerOp) : StreamState :=
  match applyOp s op with
  | .ok s2 => s2
  | .error _ => s

/-- Run a sequence of ledger operations. -/
def runOps (s : StreamState) : List LedgerOp → StreamState
  | [] => s
  | op :: ops => runOps (stepState s op) ops

/-- The amended proviso of claim C1: an insert with an explicit requested
position must be in range `[0, count]` at the moment it executes (the
source performs no such check and silently creates a gap otherwise). -/
def insertInRange (s : StreamState) : LedgerOp → Bool
  | .insert _ (some p) _ => decide (0 ≤ p ∧ p ≤ (s.length : Int))
  | .insertSafely _ (some p) => decide (0 ≤ p ∧ p ≤ (s.length : Int))
  | _ => true

/-- Predicate `insertInRange` holding at every step of a run. -/
def opsInRange (s : StreamState) : List LedgerOp → Bool
  | [] => true
  | op :: ops => insertInRange s op && opsInRange (stepState s op) ops

theorem wf_stepState (s : StreamState) (op : LedgerOp) (hwf : wf s)
    (hin : insertInRange s op = true) : wf (stepState s op) := by
  cases op with
  | insert c p d =>
      have hin2 : ∀ p0, p = some p0 → 0 ≤ p0 ∧ p0 ≤ (s.length : Int) := by
        intro p0 hp0
        subst hp0
        simpa [insertInRange] using hin
      simp only [stepState, applyOp]
      rcases hadd : addCardToStream s c p d false false with e | pr
      · exact hwf
      · exact wf_addCardToStream s c p d false false pr.1 pr.2 hwf hin2 hadd
  | insertSafely c p =>
      have hin2 : ∀ p0, p = some p0 → 0 ≤ p0 ∧ p0 ≤ (s.length : Int) := by
        intro p0 hp0
        subst hp0
        simpa [insertInRange] using hin
      simp only [stepState, applyOp]
      rcases hadd : addCardToStreamSafely s c p with e | t
      · exact hwf
      · exact wf_addCardToStreamSafely s c p t hwf hin2 hadd
  | remove c =>
      simp only [stepState, applyOp]
      exact wf_removeCardFromStream s c hwf
  | move c np nd =>
      simp only [stepState, applyOp]
      rcases hmv : reorderCard s c np nd with e | pr
      · exact hwf
      · exact wf_reorderCard s c np nd pr.1 pr.2 hwf hmv

theorem wf_runOps (s : StreamState) (ops : List LedgerOp) (hwf : wf s)
    (hin : opsInRange s ops = true) : wf (runOps s ops) := by
  induction ops generalizing s with
  | nil => exact hwf
  | cons op ops ih =>
      simp only [opsInRange, Bool.and_eq_true] at hin
      simp only [runOps]
      exact ih (stepState s op) (wf_stepState s op hwf hin.1) hin.2

/-- Claim C1, counterexample: on the well-formed one-card stream
`[card 0 at position 0]`, `StreamCard.addCardToStream` accepts the
requested position 5 - greater than the count 1 - without error (no
bounds check exists on the insert path), and the resulting position set
`{0, 5}` is not `{0, 1}`: it has a gap, refuting the claim for requested
insert positions greater than the current count. -/
theorem insert_beyond_count_breaks_contiguity :
    contiguous [(⟨0, 0, 0, false, false⟩ : SC)] ∧
    addCardToStream [(⟨0, 0, 0, false, false⟩ : SC)] 1 (some 5) 0 false false
      = .ok ([⟨0, 0, 0, false, false⟩, ⟨1, 5, 0, false, false⟩],
             ⟨1, 5, 0, false, false⟩) ∧
    ¬ contiguous [(⟨0, 0, 0, false, false⟩ : SC), ⟨1, 5, 0, false, false⟩] :=
  ⟨by decide, by decide, by decide⟩

/-- Claim C1 (amended): starting from any well-formed stream (contiguous
positions, unique card membership), any sequence of Insert
(`StreamCard.addCardToStream`), InsertSafely
(`CardFactory.addCardToStreamSafely`), Remove
(`StreamCard.removeCardFromStream`) and Move (`StreamCard.reorderCard`)
requests - where failed requests roll back and each insert's explicit
requested position lies in `[0, count]` when it executes - leaves the
set of positions exactly `{0, ..., count - 1}` with no duplicates.
Requested insert positions outside that range break the invariant
(`insert_beyond_count_breaks_contiguity`). -/
theorem positions_contiguous_invariant (s : StreamState)
    (ops : List LedgerOp) (hwf : wf s) (hin : opsInRange s ops = true) :
    (positions (runOps s ops)).Nodup ∧
    posSet (runOps s ops)
      = (Finset.range (runOps s ops).length).image
          (fun k : Nat => (k : Int)) := by
  have h := wf_runOps s ops hwf hin
  exact ⟨h.2.1, contiguous_posSet _ h.2⟩

/-- The concrete operation sequence of the invariant witness. -/
def c1ops : List LedgerOp :=
  [LedgerOp.insert 1 none 0, LedgerOp.insert 2 (some 0) 0,
   LedgerOp.insertSafely 3 (some 1), LedgerOp.move 2 2 (some 1),
   LedgerOp.insert 2 (some 1) 0, LedgerOp.remove 1]

/-- Witness for `positions_contiguous_invariant`: a six-request run on an
initially empty stream (including a duplicate insert that fails and rolls
back). -/
theorem positions_contiguous_invariant_witness :
    (positions (runOps [] c1ops)).Nodup ∧
    posSet (runOps [] c1ops)
      = (Finset.range (runOps [] c1ops).length).image
          (fun k : Nat => (k : Int)) :=
  positions_contiguous_invariant [] c1ops (by decide) (by decide)
